import Mathlib

/-!
Verification development for the IPA three-party MPC core: replicated
additive secret sharing, the compact step/gate state machine, the stream
collection used for inbound record handoff, and the multiplication
protocol layer.  Definitions are shallow embeddings of the Rust source
under src/; parts of the repository absent from the snapshot are
modelled from the specification and marked as such in their doc comments.
-/

/-- Replicated 2-of-3 additive share: an ordered pair of components,
embedding struct AdditiveShare(pub V, pub V) from
ipa-core/src/secret_sharing/replicated/semi_honest/additive_share.rs. -/
structure AdditiveShare (V : Type) where
  left : V
  right : V
deriving DecidableEq

/-- Component-wise addition of shares, embedding the Add impl
(AdditiveShare(self.0 + rhs.0, self.1 + rhs.1)). -/
def AdditiveShare.add {V : Type} [Add V] (a b : AdditiveShare V) : AdditiveShare V :=
  ⟨a.left + b.left, a.right + b.right⟩

/-- Component-wise subtraction of shares, embedding the Sub impl
(AdditiveShare(self.0 - rhs.0, self.1 - rhs.1)). -/
def AdditiveShare.sub {V : Type} [Sub V] (a b : AdditiveShare V) : AdditiveShare V :=
  ⟨a.left - b.left, a.right - b.right⟩

/-- Multiplication of a share by a public scalar, embedding the Mul impl
(AdditiveShare(self.0 * rhs, self.1 * rhs)). -/
def AdditiveShare.mulScalar {V : Type} [Mul V] (a : AdditiveShare V) (c : V) : AdditiveShare V :=
  ⟨a.left * c, a.right * c⟩

/-- A triple of shares is a valid replicated sharing when each party's right
component equals the next party's left component, as checked by
assert_valid_secret_sharing in the additive_share.rs tests. -/
def validSharing {V : Type} (s1 s2 s3 : AdditiveShare V) : Prop :=
  s1.right = s2.left ∧ s2.right = s3.left ∧ s3.right = s1.left

/-- Reconstruction of the secret from the three distinct share components
(the sum of the three left components), as checked by
assert_secret_shared_value in the additive_share.rs tests. -/
def reconstruct {V : Type} [Add V] (s1 s2 s3 : AdditiveShare V) : V :=
  s1.left + s2.left + s3.left

/-- The three helper roles, embedding helpers::Role (H1, H2, H3). -/
inductive Role : Type
  | H1
  | H2
  | H3
deriving DecidableEq

/-- Sharing of a publicly known value, embedding
ShareKnownValue::share_known_value for semi-honest replicated sharing
(src/src/protocol/basics/share_known_value.rs): H1 gets (value, 0),
H2 gets (0, 0), H3 gets (0, value). -/
def shareKnownValue {F : Type} [Zero F] (role : Role) (value : F) : AdditiveShare F :=
  match role with
  | Role.H1 => ⟨value, 0⟩
  | Role.H2 => ⟨0, 0⟩
  | Role.H3 => ⟨0, value⟩

/-- Modelled from the spec: the local cross term of the semi-honest
multiplication (the body of semi_honest::multiply in
src/src/protocol/basics/mul/semi_honest.rs is absent from the snapshot).
Section 4.4 of the spec: a party holding shares (al, ar) of a and
(bl, br) of b computes the partial product al*bl + al*br + ar*bl. -/
def crossTerm {F : Type} [Field F] (al ar bl br : F) : F :=
  al * bl + al * br + ar * bl

/-- Modelled from the spec: one party's masked message of the semi-honest
multiplication; the cross term is masked with the difference of the two
PRSS values the party shares with its left and right neighbors
(spec sections 4.2 and 4.4), so masks telescope away in the total. -/
def maskedShare {F : Type} [Field F] (sa sb : AdditiveShare F) (rOwn rNext : F) : F :=
  crossTerm sa.left sa.right sb.left sb.right + rOwn - rNext

/-- Modelled from the spec: the full three-party semi-honest multiplication
(SecureMul::multiply) run between three simulated parties with an ideal
in-memory transport: each party i computes its masked cross term z i from
its own shares and PRSS masks, sends it to one neighbor, and assembles the
output share (z i, z of next party) from its own value and the received
message. -/
def threePartyMul {F : Type} [Field F] (sa1 sa2 sa3 sb1 sb2 sb3 : AdditiveShare F)
    (r1 r2 r3 : F) : AdditiveShare F × AdditiveShare F × AdditiveShare F :=
  let z1 := maskedShare sa1 sb1 r1 r2
  let z2 := maskedShare sa2 sb2 r2 r3
  let z3 := maskedShare sa3 sb3 r3 r1
  (⟨z1, z2⟩, ⟨z2, z3⟩, ⟨z3, z1⟩)

/-- Outcome of the terminal batched MAC validation; a non-zero check is a
distinct integrity failure, never success (spec section 4.4). -/
inductive ValidationResult : Type
  | ok
  | integrityFailure
deriving DecidableEq

/-- Modelled from the spec: the revealed value of the terminal batched MAC
validation for a malicious context chain (the validator implementation is
absent from the snapshot): a random linear combination of the accumulated
per-multiplication check values. -/
def batchCheck {q : ℕ} {n : ℕ} (alpha c : Fin n → ZMod q) : ZMod q :=
  ∑ i, alpha i * c i

/-- Modelled from the spec: the batched validation succeeds exactly when the
revealed random linear combination of check values is zero; otherwise it
reports an integrity failure. -/
def validateBatch {q : ℕ} {n : ℕ} (alpha c : Fin n → ZMod q) : ValidationResult :=
  if batchCheck alpha c = 0 then ValidationResult.ok else ValidationResult.integrityFailure

/-- Modelled from the spec: the accumulated check values when every party
follows the protocol are all zero (each multiplication contributes a zero
residue when nobody deviates). -/
def honestChecks (q n : ℕ) : Fin n → ZMod q := fun _ => 0

/-- Modelled from the spec: the accumulated check values when exactly one
multiply message in the batch is perturbed: position i carries the non-zero
residue d of the deviation and every other position is zero. -/
def singleDeviation {q : ℕ} {n : ℕ} (i : Fin n) (d : ZMod q) : Fin n → ZMod q :=
  fun j => if j = i then d else 0

/-- Special-case transitions of the compact step encoding, embedding
static_state_map from src/src/protocol/step/compact.rs.  The Rust match
arms are tried in order: any state with name run-0 goes to state 0, any
state with name fallback goes to 65534, any state with name
upgrade_semi-honest goes to 65533, any other name from state 65533 stays
at 65533, and everything else panics (modelled as none). -/
def staticStateMap (state : ℕ) (step : String) : Option ℕ :=
  if step = "run-0" then some 0
  else if step = "fallback" then some 65534
  else if step = "upgrade_semi-honest" then some 65533
  else if state = 65533 then some 65533
  else none

/-- Reverse map from a compact state to its diagnostic string, embedding
static_reverse_state_map from src/src/protocol/step/compact.rs: state 0
maps to run-0, state 65534 maps to upgrade_semi-honest, and every other
state panics (modelled as none). -/
def staticReverseStateMap (state : ℕ) : Option String :=
  if state = 0 then some "run-0"
  else if state = 65534 then some "upgrade_semi-honest"
  else none

/-- A precomputed transition table of the compact encoding: a finite list of
entries mapping a (parent state, child name) pair to a child state.  The
table is generated offline by the Step derive macro
(ipa-macros/src/derive_step/mod.rs) from the steps file, one entry per
line with the line number as the child state id. -/
abbrev TransitionTable : Type :=
  List ((ℕ × String) × ℕ)

/-- Table lookup for a (state, name) pair, embedding the generated match
over precomputed transitions in the Step derive macro output. -/
def lookupTable (t : TransitionTable) (state : ℕ) (step : String) : Option ℕ :=
  (t.find? (fun e => e.1.1 == state && e.1.2 == step)).map (fun e => e.2)

/-- Narrowing of a compact gate, embedding the StepNarrow implementation
generated by the Step derive macro: first the precomputed transitions are
tried, and on a miss the wildcard arm evaluates static_state_map (which
panics, modelled as none, when the pair is unrecognized). -/
def narrowCompact (t : TransitionTable) (state : ℕ) (step : String) : Option ℕ :=
  match lookupTable t state step with
  | some x => some x
  | none => staticStateMap state step

/-- Narrowing of a compact gate through a whole name sequence; the state
after each step feeds the next, and a panic anywhere aborts (none). -/
def narrowCompactSeq (t : TransitionTable) (state : ℕ) : List String → Option ℕ
  | [] => some state
  | step :: rest =>
    match narrowCompact t state step with
    | some s2 => narrowCompactSeq t s2 rest
    | none => none

/-- The special-case transitions of static_state_map, written out as a
predicate: the three unconditionally narrowed names run-0, fallback and
upgrade_semi-honest, and the absorbing behaviour of state 65533 for every
other name. -/
def specialTransition (state : ℕ) (step : String) (next : ℕ) : Prop :=
  (step = "run-0" ∧ next = 0) ∨
  (step = "fallback" ∧ next = 65534) ∨
  (step = "upgrade_semi-honest" ∧ next = 65533) ∨
  (state = 65533 ∧ step ≠ "run-0" ∧ step ≠ "fallback" ∧
    step ≠ "upgrade_semi-honest" ∧ next = 65533)

/-- Modelled from the spec: the descriptive gate encoding
(src/src/protocol/step/mod.rs is absent from the snapshot); the spec says
the descriptive encoding is an append-only path that concatenates the
narrowed step names, so a gate is the sequence of names from the root. -/
def descNarrow (g : List String) (step : String) : List String :=
  g ++ [step]

/-- Narrowing of a descriptive gate through a whole name sequence. -/
def descNarrowSeq (g : List String) : List String → List String
  | [] => g
  | step :: rest => descNarrowSeq (descNarrow g step) rest

/-- Fixed-width serialization of a replicated share, embedding the
Serializable impl for AdditiveShare: the left component's bytes followed
by the right component's bytes.  The component serializer vser is a
parameter because the shared-value types live in the ff module, which is
absent from the snapshot. -/
def serializeShare {V : Type} (vser : V → List ℕ) (s : AdditiveShare V) : List ℕ :=
  vser s.left ++ vser s.right

/-- Deserialization of one replicated share from a chunk of bytes,
embedding AdditiveShare::deserialize: the left component comes from the
first n bytes and the right component from the rest. -/
def deserializeShare {V : Type} (n : ℕ) (vdeser : List ℕ → V) (bs : List ℕ) :
    AdditiveShare V :=
  ⟨vdeser (bs.take n), vdeser (bs.drop n)⟩

/-- Fuel-indexed splitting of a list into consecutive chunks of k elements,
mirroring the Rust slice chunks iterator used by from_byte_slice. -/
def chunksOfAux {α : Type} (k : ℕ) : ℕ → List α → List (List α)
  | _, [] => []
  | 0, _ => []
  | fuel + 1, l@(_ :: _) => l.take k :: chunksOfAux k fuel (l.drop k)

/-- Splitting of a list into consecutive chunks of k elements. -/
def chunksOf {α : Type} (k : ℕ) (l : List α) : List (List α) :=
  chunksOfAux k l.length l

/-- Bulk deserialization of a byte buffer into a list of shares, embedding
AdditiveShare::from_byte_slice: the buffer is split into chunks of the
serialized share width 2*n and each chunk is deserialized. -/
def fromByteSlice {V : Type} (n : ℕ) (vdeser : List ℕ → V) (bs : List ℕ) :
    List (AdditiveShare V) :=
  (chunksOf (2 * n) bs).map (deserializeShare n vdeser)

/-- Bulk serialization of a list of shares into one contiguous buffer. -/
def serializeAll {V : Type} (vser : V → List ℕ) (l : List (AdditiveShare V)) : List ℕ :=
  (l.map (serializeShare vser)).flatten

/-- Lifecycle of one inbound record stream inside the stream collection,
embedding enum RecordsStream from src/src/helpers/transport/stream.rs. -/
inductive RecordsStream (S W : Type) : Type
  | Waiting (w : W)
  | Ready (s : S)
  | Completed
deriving DecidableEq

/-- The stream collection indexed by (query id, origin helper, gate) keys,
embedding StreamCollection: a map from keys to stream lifecycle states,
with absent keys modelled as none. -/
def StreamColl (K S W : Type) : Type :=
  K → Option (RecordsStream S W)

/-- Pointwise update of the stream collection at one key. -/
def updateColl {K S W : Type} [DecidableEq K] (c : StreamColl K S W) (k : K)
    (v : RecordsStream S W) : StreamColl K S W :=
  fun k2 => if k2 = k then some v else c k2

/-- Registration of an inbound stream, embedding
StreamCollection::add_stream: a Waiting entry is replaced by Ready (waking
the registered waker), a Ready or Completed entry panics (none), and a
vacant entry is filled with Ready. -/
def addStream {K S W : Type} [DecidableEq K] (c : StreamColl K S W) (k : K) (s : S) :
    Option (StreamColl K S W) :=
  match c k with
  | some (RecordsStream.Waiting _) => some (updateColl c k (RecordsStream.Ready s))
  | some (RecordsStream.Ready _) => none
  | some RecordsStream.Completed => none
  | none => some (updateColl c k (RecordsStream.Ready s))

/-- Consumption attempt, embedding StreamCollection::add_waker: on a
Waiting entry the stored waker must be the one that wakes the given one
(will_wake, modelled as equality; a mismatch is the assert panic, none);
a Ready entry is taken out, leaving a Completed tombstone; a Completed
entry panics (none); a vacant entry stores the waker. -/
def addWaker {K S W : Type} [DecidableEq K] [DecidableEq W] (c : StreamColl K S W)
    (k : K) (w : W) : Option (StreamColl K S W × Option S) :=
  match c k with
  | some (RecordsStream.Waiting w0) => if w0 = w then some (c, none) else none
  | some (RecordsStream.Ready s) => some (updateColl c k RecordsStream.Completed, some s)
  | some RecordsStream.Completed => none
  | none => some (updateColl c k (RecordsStream.Waiting w), none)

/-- Inner state of the receive-records future, embedding enum
ReceiveRecordsInner from src/src/helpers/transport/receive.rs. -/
inductive RRInner (K S W : Type) : Type
  | Pending (k : K)
  | Ready (s : S)
deriving DecidableEq

/-- One poll of the receive-records future, embedding
ReceiveRecordsInner::poll_next: in the Pending state it calls add_waker;
if the stream is returned the future becomes Ready and from then on acts
as a proxy to the stream; otherwise it stays Pending.  A panic inside
add_waker propagates (none). -/
def pollReceive {K S W : Type} [DecidableEq K] [DecidableEq W] (inner : RRInner K S W)
    (c : StreamColl K S W) (w : W) : Option (RRInner K S W × StreamColl K S W) :=
  match inner with
  | RRInner.Pending k =>
    match addWaker c k w with
    | none => none
    | some (c1, some s) => some (RRInner.Ready s, c1)
    | some (c1, none) => some (RRInner.Pending k, c1)
  | RRInner.Ready s => some (RRInner.Ready s, c)

/-- Validity of a sharing is decidable whenever share components can be
compared, so witnesses can be checked by evaluation. -/
instance {V : Type} [DecidableEq V] (s1 s2 s3 : AdditiveShare V) :
    Decidable (validSharing s1 s2 s3) := by
  unfold validSharing
  infer_instance

/-- The test field size 31 used throughout the repository's tests is prime,
so ZMod 31 is the field Fp31. -/
instance : Fact (Nat.Prime 31) :=
  ⟨by norm_num⟩

/-- The small prime 3 used for the validation witness. -/
instance : Fact (Nat.Prime 3) :=
  ⟨by norm_num⟩

/-- C3: for all replicated sharings (a1,a2,a3) of a and (b1,b2,b3) of b over
a field and every field element c, component-wise local share addition,
subtraction, and multiplication by the public scalar c, followed by
reconstruction, yield a+b, a-b, and c*a respectively, and each result is
again a valid replicated sharing; the operations are message-free total
functions, so they cannot fail. -/
theorem additive_share_local_ops (F : Type) [Field F] (a b c : F)
    (a1 a2 a3 b1 b2 b3 : AdditiveShare F)
    (hva : validSharing a1 a2 a3) (hvb : validSharing b1 b2 b3)
    (hra : reconstruct a1 a2 a3 = a) (hrb : reconstruct b1 b2 b3 = b) :
    (reconstruct (a1.add b1) (a2.add b2) (a3.add b3) = a + b ∧
      validSharing (a1.add b1) (a2.add b2) (a3.add b3)) ∧
    (reconstruct (a1.sub b1) (a2.sub b2) (a3.sub b3) = a - b ∧
      validSharing (a1.sub b1) (a2.sub b2) (a3.sub b3)) ∧
    (reconstruct (a1.mulScalar c) (a2.mulScalar c) (a3.mulScalar c) = c * a ∧
      validSharing (a1.mulScalar c) (a2.mulScalar c) (a3.mulScalar c)) := by
  obtain ⟨ha1, ha2, ha3⟩ := hva
  obtain ⟨hb1, hb2, hb3⟩ := hvb
  subst hra hrb
  refine ⟨⟨?_, ?_, ?_, ?_⟩, ⟨?_, ?_, ?_, ?_⟩, ⟨?_, ?_, ?_, ?_⟩⟩ <;>
    simp only [reconstruct, validSharing, AdditiveShare.add, AdditiveShare.sub,
      AdditiveShare.mulScalar, ha1, ha2, ha3, hb1, hb2, hb3] <;> ring

/-- Witness for C3 at concrete inputs over the field with 31 elements:
shares (1,1,2) of 4 and (2,2,1) of 5, scalar 3. -/
theorem additive_share_local_ops_witness :
    validSharing (⟨1, 1⟩ : AdditiveShare (ZMod 31)) ⟨1, 2⟩ ⟨2, 1⟩ ∧
    validSharing (⟨2, 2⟩ : AdditiveShare (ZMod 31)) ⟨2, 1⟩ ⟨1, 2⟩ ∧
    reconstruct (⟨1, 1⟩ : AdditiveShare (ZMod 31)) ⟨1, 2⟩ ⟨2, 1⟩ = 4 ∧
    reconstruct (⟨2, 2⟩ : AdditiveShare (ZMod 31)) ⟨2, 1⟩ ⟨1, 2⟩ = 5 ∧
    (reconstruct ((⟨1, 1⟩ : AdditiveShare (ZMod 31)).add ⟨2, 2⟩)
        ((⟨1, 2⟩ : AdditiveShare (ZMod 31)).add ⟨2, 1⟩)
        ((⟨2, 1⟩ : AdditiveShare (ZMod 31)).add ⟨1, 2⟩) = 4 + 5 ∧
      validSharing ((⟨1, 1⟩ : AdditiveShare (ZMod 31)).add ⟨2, 2⟩)
        ((⟨1, 2⟩ : AdditiveShare (ZMod 31)).add ⟨2, 1⟩)
        ((⟨2, 1⟩ : AdditiveShare (ZMod 31)).add ⟨1, 2⟩)) := by
  refine ⟨by decide, by decide, by decide, by decide, ?_⟩
  exact (additive_share_local_ops (ZMod 31) 4 5 3 ⟨1, 1⟩ ⟨1, 2⟩ ⟨2, 1⟩ ⟨2, 2⟩ ⟨2, 1⟩ ⟨1, 2⟩
    (by decide) (by decide) (by decide) (by decide)).1

/-- C10: share_known_value returns (v, 0) at H1, (0, 0) at H2, (0, v) at H3;
the three results form a valid replicated sharing and reconstruct to v. -/
theorem share_known_value_correct (F : Type) [Field F] (v : F) :
    shareKnownValue Role.H1 v = ⟨v, 0⟩ ∧
    shareKnownValue Role.H2 v = ⟨0, 0⟩ ∧
    shareKnownValue Role.H3 v = ⟨0, v⟩ ∧
    validSharing (shareKnownValue Role.H1 v) (shareKnownValue Role.H2 v)
      (shareKnownValue Role.H3 v) ∧
    reconstruct (shareKnownValue Role.H1 v) (shareKnownValue Role.H2 v)
      (shareKnownValue Role.H3 v) = v := by
  refine ⟨rfl, rfl, rfl, ⟨rfl, rfl, rfl⟩, ?_⟩
  simp [reconstruct, shareKnownValue]

/-- C1: running the three-party semi-honest multiplication on valid
replicated sharings of a and b, for any values of the pairwise PRSS masks,
produces three output shares that form a valid replicated sharing and
reconstruct to a*b in the field. -/
theorem secure_mul_reconstructs (F : Type) [Field F] (a b : F)
    (sa1 sa2 sa3 sb1 sb2 sb3 : AdditiveShare F) (r1 r2 r3 : F)
    (hva : validSharing sa1 sa2 sa3) (hvb : validSharing sb1 sb2 sb3)
    (hra : reconstruct sa1 sa2 sa3 = a) (hrb : reconstruct sb1 sb2 sb3 = b) :
    reconstruct (threePartyMul sa1 sa2 sa3 sb1 sb2 sb3 r1 r2 r3).1
      (threePartyMul sa1 sa2 sa3 sb1 sb2 sb3 r1 r2 r3).2.1
      (threePartyMul sa1 sa2 sa3 sb1 sb2 sb3 r1 r2 r3).2.2 = a * b ∧
    validSharing (threePartyMul sa1 sa2 sa3 sb1 sb2 sb3 r1 r2 r3).1
      (threePartyMul sa1 sa2 sa3 sb1 sb2 sb3 r1 r2 r3).2.1
      (threePartyMul sa1 sa2 sa3 sb1 sb2 sb3 r1 r2 r3).2.2 := by
  obtain ⟨ha1, ha2, ha3⟩ := hva
  obtain ⟨hb1, hb2, hb3⟩ := hvb
  subst hra hrb
  constructor
  · simp only [threePartyMul, maskedShare, crossTerm, reconstruct]
    rw [ha1, ha2, ha3, hb1, hb2, hb3]
    ring
  · exact ⟨rfl, rfl, rfl⟩

/-- Witness for C1 matching the example in the spec: over the field with 31
elements, shares of 4 and 5 multiply and reconstruct to 20. -/
theorem secure_mul_reconstructs_witness :
    validSharing (⟨1, 1⟩ : AdditiveShare (ZMod 31)) ⟨1, 2⟩ ⟨2, 1⟩ ∧
    validSharing (⟨2, 2⟩ : AdditiveShare (ZMod 31)) ⟨2, 1⟩ ⟨1, 2⟩ ∧
    reconstruct (⟨1, 1⟩ : AdditiveShare (ZMod 31)) ⟨1, 2⟩ ⟨2, 1⟩ = 4 ∧
    reconstruct (⟨2, 2⟩ : AdditiveShare (ZMod 31)) ⟨2, 1⟩ ⟨1, 2⟩ = 5 ∧
    (4 : ZMod 31) * 5 = 20 ∧
    reconstruct (threePartyMul ⟨1, 1⟩ ⟨1, 2⟩ ⟨2, 1⟩ ⟨2, 2⟩ ⟨2, 1⟩ ⟨1, 2⟩ 3 7 11).1
      (threePartyMul (⟨1, 1⟩ : AdditiveShare (ZMod 31)) ⟨1, 2⟩ ⟨2, 1⟩ ⟨2, 2⟩ ⟨2, 1⟩ ⟨1, 2⟩ 3 7 11).2.1
      (threePartyMul (⟨1, 1⟩ : AdditiveShare (ZMod 31)) ⟨1, 2⟩ ⟨2, 1⟩ ⟨2, 2⟩ ⟨2, 1⟩ ⟨1, 2⟩ 3 7 11).2.2
      = 4 * 5 := by
  refine ⟨by decide, by decide, by decide, by decide, by decide, ?_⟩
  exact (secure_mul_reconstructs (ZMod 31) 4 5 ⟨1, 1⟩ ⟨1, 2⟩ ⟨2, 1⟩ ⟨2, 2⟩ ⟨2, 1⟩ ⟨1, 2⟩ 3 7 11
    (by decide) (by decide) (by decide) (by decide)).1

/-- C7 (code bug): evaluation of the compact maps at the failing states.
Narrowing with the name fallback reaches state 65534, yet the reverse map
labels 65534 with the different name upgrade_semi-honest; narrowing with
upgrade_semi-honest reaches state 65533, yet the reverse map has no entry
for 65533 and panics (none), so a reachable special-case state has no
diagnostic string and another gets a string that names a different step. -/
theorem compact_reverse_map_mismatch :
    staticStateMap 0 "fallback" = some 65534 ∧
    staticReverseStateMap 65534 = some "upgrade_semi-honest" ∧
    staticStateMap 0 "upgrade_semi-honest" = some 65533 ∧
    staticReverseStateMap 65533 = none ∧
    ("fallback" : String) ≠ "upgrade_semi-honest" := by
  refine ⟨by decide, by decide, by decide, by decide, by decide⟩

/-- Narrowing a descriptive gate through a sequence appends the sequence to
the current path. -/
theorem descNarrowSeq_append (ns : List String) :
    ∀ g : List String, descNarrowSeq g ns = g ++ ns := by
  induction ns with
  | nil => intro g; simp [descNarrowSeq]
  | cons n rest ih => intro g; simp [descNarrowSeq, descNarrow, ih]

/-- C5 (amended): narrowing is deterministic in both encodings (it is a
function of the parent and the name).  In the descriptive encoding, gates
built from the root through two name sequences are equal exactly when the
sequences are equal, and distinct names from one parent give distinct
children.  In the compact encoding, transitions present in the precomputed
table are collision-free because the table assigns globally unique child
ids; the special-case transitions, however, do collide (see the
counterexample). -/
theorem gate_narrow_collisions_amended :
    (∀ ns1 ns2 : List String, descNarrowSeq [] ns1 = descNarrowSeq [] ns2 ↔ ns1 = ns2) ∧
    (∀ (g : List String) (n1 n2 : String), descNarrow g n1 = descNarrow g n2 ↔ n1 = n2) ∧
    (∀ t : TransitionTable, (t.map (fun e => e.2)).Nodup →
      ∀ (state : ℕ) (n1 n2 : String) (x1 x2 : ℕ), n1 ≠ n2 →
        lookupTable t state n1 = some x1 → lookupTable t state n2 = some x2 → x1 ≠ x2) := by
  refine ⟨?_, ?_, ?_⟩
  · intro ns1 ns2
    rw [descNarrowSeq_append, descNarrowSeq_append]
    simp
  · intro g n1 n2
    simp [descNarrow]
  · intro t ht state n1 n2 x1 x2 hne h1 h2 heq
    unfold lookupTable at h1 h2
    obtain ⟨e1, he1, hx1⟩ := Option.map_eq_some'.mp h1
    obtain ⟨e2, he2, hx2⟩ := Option.map_eq_some'.mp h2
    have hm1 : e1 ∈ t := List.mem_of_find?_eq_some he1
    have hm2 : e2 ∈ t := List.mem_of_find?_eq_some he2
    have hp1 := List.find?_some he1
    have hp2 := List.find?_some he2
    simp only [Bool.and_eq_true, beq_iff_eq] at hp1 hp2
    have hee : e1 = e2 := List.inj_on_of_nodup_map ht hm1 hm2 (by rw [hx1, hx2, heq])
    exact hne (by rw [← hp1.2, ← hp2.2, hee])

/-- Counterexample for C5: in the compact encoding the sequences
[upgrade_semi-honest, a] and [upgrade_semi-honest, b] are different name
sequences from the root (and a, b are distinct child names of the same
parent state 65533), yet both produce the same Gate value 65533. -/
theorem compact_distinct_names_collide :
    narrowCompactSeq [] 0 ["upgrade_semi-honest", "a"] = some 65533 ∧
    narrowCompactSeq [] 0 ["upgrade_semi-honest", "b"] = some 65533 ∧
    ("a" : String) ≠ "b" := by
  refine ⟨by decide, by decide, by decide⟩

/-- Witness for C5 (amended) on a concrete two-entry table with distinct
child ids: the two table transitions from state 0 cannot collide. -/
theorem gate_narrow_collisions_amended_witness :
    (([((0, "x"), 1), ((0, "y"), 2)] : TransitionTable).map (fun e => e.2)).Nodup ∧
    ("x" : String) ≠ "y" ∧
    lookupTable [((0, "x"), 1), ((0, "y"), 2)] 0 "x" = some 1 ∧
    lookupTable [((0, "x"), 1), ((0, "y"), 2)] 0 "y" = some 2 ∧
    (1 : ℕ) ≠ 2 := by
  refine ⟨by decide, by decide, by decide, by decide, ?_⟩
  exact gate_narrow_collisions_amended.2.2 [((0, "x"), 1), ((0, "y"), 2)] (by decide)
    0 "x" "y" 1 2 (by decide) (by decide) (by decide)

/-- C6 (amended): narrowing a compact state either follows a transition of
the precomputed table, or matches one of the special-case transitions
(run-0, fallback, upgrade_semi-honest from any state, and the absorbing
behaviour of state 65533 for other names), and otherwise returns no Gate
value at all (the Rust code panics); moreover from state 65533 every
narrow with a name other than the three special names leaves the state
unchanged (the three special names still take their unconditional
transitions, as the counterexample shows for run-0). -/
theorem compact_narrow_trichotomy :
    (∀ (t : TransitionTable) (state : ℕ) (step : String),
      (∃ x, narrowCompact t state step = some x ∧
        (lookupTable t state step = some x ∨ specialTransition state step x)) ∨
      (narrowCompact t state step = none ∧ lookupTable t state step = none ∧
        ∀ x, ¬ specialTransition state step x)) ∧
    (∀ step : String, step ≠ "run-0" → step ≠ "fallback" →
      step ≠ "upgrade_semi-honest" → staticStateMap 65533 step = some 65533) := by
  constructor
  · intro t state step
    cases h : lookupTable t state step with
    | some x =>
      exact Or.inl ⟨x, by simp [narrowCompact, h], Or.inl rfl⟩
    | none =>
      have hn : narrowCompact t state step = staticStateMap state step := by
        simp [narrowCompact, h]
      by_cases h1 : step = "run-0"
      · subst h1
        exact Or.inl ⟨0, by rw [hn]; simp [staticStateMap], Or.inr (Or.inl ⟨rfl, rfl⟩)⟩
      by_cases h2 : step = "fallback"
      · subst h2
        exact Or.inl ⟨65534, by rw [hn]; simp [staticStateMap],
          Or.inr (Or.inr (Or.inl ⟨rfl, rfl⟩))⟩
      by_cases h3 : step = "upgrade_semi-honest"
      · subst h3
        exact Or.inl ⟨65533, by rw [hn]; simp [staticStateMap],
          Or.inr (Or.inr (Or.inr (Or.inl ⟨rfl, rfl⟩)))⟩
      by_cases h4 : state = 65533
      · subst h4
        exact Or.inl ⟨65533, by rw [hn]; simp [staticStateMap, h1, h2, h3],
          Or.inr (Or.inr (Or.inr (Or.inr ⟨rfl, h1, h2, h3, rfl⟩)))⟩
      · refine Or.inr ⟨?_, rfl, ?_⟩
        · rw [hn]
          simp [staticStateMap, h1, h2, h3, h4]
        · intro x hx
          rcases hx with ⟨hs, _⟩ | ⟨hs, _⟩ | ⟨hs, _⟩ | ⟨hs, _⟩
          · exact h1 hs
          · exact h2 hs
          · exact h3 hs
          · exact h4 hs
  · intro step h1 h2 h3
    simp [staticStateMap, h1, h2, h3]

/-- Counterexample for C6: state 65533 (reached by the upgrade_semi-honest
transition) is not absorbing: narrowing it with run-0 changes the state
to 0 instead of leaving it unchanged. -/
theorem compact_upgrade_state_not_absorbing :
    narrowCompact [] 65533 "run-0" = some 0 ∧ (0 : ℕ) ≠ 65533 := by
  refine ⟨by decide, by decide⟩

/-- Witness for C6 (amended) at a concrete non-special name: narrowing state
65533 with the name attribution leaves the state unchanged. -/
theorem compact_narrow_trichotomy_witness :
    ("attribution" : String) ≠ "run-0" ∧ ("attribution" : String) ≠ "fallback" ∧
    ("attribution" : String) ≠ "upgrade_semi-honest" ∧
    staticStateMap 65533 "attribution" = some 65533 := by
  refine ⟨by decide, by decide, by decide, ?_⟩
  exact compact_narrow_trichotomy.2 "attribution" (by decide) (by decide) (by decide)

/-- C8: add_stream panics exactly when a stream was already registered under
the key (entry in Ready or Completed state); add_waker panics if the stream
for the key has already been taken (Completed); and for a fresh key the
registered stream is returned by the first consuming call exactly once:
the next consuming call panics. -/
theorem stream_collection_single_use {K S W : Type} [DecidableEq K] [DecidableEq W]
    (c : StreamColl K S W) (k : K) (s : S) (w : W) :
    (addStream c k s = none ↔
      (∃ s0, c k = some (RecordsStream.Ready s0)) ∨ c k = some RecordsStream.Completed) ∧
    (c k = some RecordsStream.Completed → addWaker c k w = none) ∧
    (c k = none → ∃ c1 c2, addStream c k s = some c1 ∧
      addWaker c1 k w = some (c2, some s) ∧ addWaker c2 k w = none) := by
  refine ⟨?_, ?_, ?_⟩
  · cases h : c k with
    | none => simp [addStream, h]
    | some rs =>
      cases rs with
      | Waiting w0 => simp [addStream, h]
      | Ready s0 => simp [addStream, h]
      | Completed => simp [addStream, h]
  · intro h
    simp [addWaker, h]
  · intro h
    refine ⟨updateColl c k (RecordsStream.Ready s),
      updateColl (updateColl c k (RecordsStream.Ready s)) k RecordsStream.Completed,
      ?_, ?_, ?_⟩
    · simp [addStream, h]
    · simp [addWaker, updateColl]
    · simp [addWaker, updateColl]

/-- Witness for C8 on a fresh key of an empty collection over natural-number
keys, streams and wakers. -/
theorem stream_collection_single_use_witness :
    ((fun _ : ℕ => (none : Option (RecordsStream ℕ ℕ))) 0 = none) ∧
    (∃ c1 c2, addStream (fun _ : ℕ => (none : Option (RecordsStream ℕ ℕ))) 0 5 = some c1 ∧
      addWaker c1 0 7 = some (c2, some 5) ∧ addWaker c2 0 7 = none) := by
  refine ⟨rfl, ?_⟩
  exact (stream_collection_single_use (fun _ : ℕ => (none : Option (RecordsStream ℕ ℕ)))
    0 5 7).2.2 rfl

/-- C9: stream handoff is order-independent.  For a key with no prior entry,
whether the stream registers before the first poll of the receive future or
after it, the future ends in the Ready proxy state holding exactly the
registered stream (so its polls yield that stream's items), and exactly one
add_waker call returns the stream: a further consuming call panics. -/
theorem stream_handoff_order_independent {K S W : Type} [DecidableEq K] [DecidableEq W]
    (c0 : StreamColl K S W) (k : K) (s : S) (w : W) (h : c0 k = none) :
    (∃ c1 c2, addStream c0 k s = some c1 ∧
      pollReceive (RRInner.Pending k) c1 w = some (RRInner.Ready s, c2) ∧
      addWaker c2 k w = none) ∧
    (∃ c1 c2 c3, pollReceive (RRInner.Pending k) c0 w = some (RRInner.Pending k, c1) ∧
      addStream c1 k s = some c2 ∧
      pollReceive (RRInner.Pending k) c2 w = some (RRInner.Ready s, c3) ∧
      addWaker c3 k w = none) := by
  constructor
  · refine ⟨updateColl c0 k (RecordsStream.Ready s),
      updateColl (updateColl c0 k (RecordsStream.Ready s)) k RecordsStream.Completed,
      ?_, ?_, ?_⟩
    · simp [addStream, h]
    · simp [pollReceive, addWaker, updateColl]
    · simp [addWaker, updateColl]
  · refine ⟨updateColl c0 k (RecordsStream.Waiting w),
      updateColl (updateColl c0 k (RecordsStream.Waiting w)) k (RecordsStream.Ready s),
      updateColl (updateColl (updateColl c0 k (RecordsStream.Waiting w)) k
        (RecordsStream.Ready s)) k RecordsStream.Completed,
      ?_, ?_, ?_, ?_⟩
    · simp [pollReceive, addWaker, h]
    · simp [addStream, updateColl]
    · simp [pollReceive, addWaker, updateColl]
    · simp [addWaker, updateColl]

/-- Witness for C9 on a fresh key of an empty collection over natural-number
keys, streams and wakers. -/
theorem stream_handoff_order_independent_witness :
    ((fun _ : ℕ => (none : Option (RecordsStream ℕ ℕ))) 0 = none) ∧
    (∃ c1 c2, addStream (fun _ : ℕ => (none : Option (RecordsStream ℕ ℕ))) 0 5 = some c1 ∧
      pollReceive (RRInner.Pending 0) c1 7 = some (RRInner.Ready 5, c2) ∧
      addWaker c2 0 7 = none) := by
  refine ⟨rfl, ?_⟩
  exact (stream_handoff_order_independent (fun _ : ℕ => (none : Option (RecordsStream ℕ ℕ)))
    0 5 7 rfl).1

/-- The chunk splitter ignores its fuel as long as the fuel covers the length
of the list (the chunk width k must be positive). -/
theorem chunksOfAux_congr {α : Type} (k : ℕ) (hk : 0 < k) :
    ∀ (f1 f2 : ℕ) (l : List α), l.length ≤ f1 → l.length ≤ f2 →
      chunksOfAux k f1 l = chunksOfAux k f2 l := by
  intro f1
  induction f1 with
  | zero =>
    intro f2 l h1 _
    have hl : l = [] := List.length_eq_zero.mp (Nat.le_zero.mp h1)
    subst hl
    cases f2 <;> rfl
  | succ m ih =>
    intro f2 l h1 h2
    cases l with
    | nil => cases f2 <;> rfl
    | cons x rest =>
      cases f2 with
      | zero => simp at h2
      | succ m2 =>
        show (x :: rest).take k :: chunksOfAux k m ((x :: rest).drop k)
            = (x :: rest).take k :: chunksOfAux k m2 ((x :: rest).drop k)
        congr 1
        refine ih m2 _ ?_ ?_ <;>
          (rw [List.length_drop]; simp only [List.length_cons] at h1 h2 ⊢; omega)

/-- Splitting a buffer that starts with one full chunk peels that chunk off. -/
theorem chunksOf_cons_of_length {α : Type} (k : ℕ) (hk : 0 < k) (xs ys : List α)
    (hx : xs.length = k) : chunksOf k (xs ++ ys) = xs :: chunksOf k ys := by
  cases xs with
  | nil =>
    rw [List.length_nil] at hx
    exact absurd hx.symm (by omega)
  | cons x xs2 =>
    show chunksOfAux k ((x :: xs2) ++ ys).length ((x :: xs2) ++ ys) = _
    have hlen : ((x :: xs2) ++ ys).length = (xs2 ++ ys).length + 1 := by simp
    rw [hlen]
    show (x :: (xs2 ++ ys)).take k :: chunksOfAux k (xs2 ++ ys).length
        ((x :: (xs2 ++ ys)).drop k) = _
    have htake : (x :: (xs2 ++ ys)).take k = x :: xs2 := by
      rw [show x :: (xs2 ++ ys) = (x :: xs2) ++ ys from rfl, ← hx, List.take_left]
    have hdrop : (x :: (xs2 ++ ys)).drop k = ys := by
      rw [show x :: (xs2 ++ ys) = (x :: xs2) ++ ys from rfl, ← hx, List.drop_left]
    rw [htake, hdrop]
    congr 1
    refine chunksOfAux_congr k hk _ _ ys ?_ (Nat.le_refl _)
    simp only [List.length_append]
    omega

/-- C4: serialization of a share is the fixed-width concatenation of the left
component's bytes followed by the right component's bytes (width 2n for
component width n); deserializing one serialized share returns it, and
serializing any sequence of shares into one contiguous buffer and running
from_byte_slice on it reproduces the sequence exactly (covering length 0, 1
and many). -/
theorem additive_share_serialization_roundtrip {V : Type} (n : ℕ) (vser : V → List ℕ)
    (vdeser : List ℕ → V) (hn : 0 < n) (hlen : ∀ v, (vser v).length = n)
    (hround : ∀ v, vdeser (vser v) = v) (l : List (AdditiveShare V)) :
    fromByteSlice n vdeser (serializeAll vser l) = l ∧
    ∀ s : AdditiveShare V, serializeShare vser s = vser s.left ++ vser s.right ∧
      (serializeShare vser s).length = 2 * n ∧
      deserializeShare n vdeser (serializeShare vser s) = s := by
  have hsingle : ∀ s : AdditiveShare V,
      deserializeShare n vdeser (serializeShare vser s) = s := by
    intro s
    unfold deserializeShare serializeShare
    rw [← hlen s.left, List.take_left, List.drop_left, hround, hround]
  have hlen2 : ∀ s : AdditiveShare V, (serializeShare vser s).length = 2 * n := by
    intro s
    simp only [serializeShare, List.length_append, hlen]
    omega
  refine ⟨?_, fun s => ⟨rfl, hlen2 s, hsingle s⟩⟩
  induction l with
  | nil => rfl
  | cons s rest ih =>
    have hser : serializeAll vser (s :: rest)
        = serializeShare vser s ++ serializeAll vser rest := by
      simp [serializeAll]
    rw [hser]
    unfold fromByteSlice
    rw [chunksOf_cons_of_length (2 * n) (by omega) _ _ (hlen2 s)]
    simp only [List.map_cons]
    rw [hsingle s]
    exact congrArg (List.cons s) ih

/-- Witness for C4 with one-byte components and a two-share sequence. -/
theorem additive_share_serialization_roundtrip_witness :
    0 < 1 ∧ (∀ v : ℕ, ([v] : List ℕ).length = 1) ∧
    (∀ v : ℕ, ([v] : List ℕ).headD 0 = v) ∧
    fromByteSlice 1 (fun bs => bs.headD 0) (serializeAll (fun v => [v])
      [(⟨3, 4⟩ : AdditiveShare ℕ), ⟨5, 6⟩]) = [⟨3, 4⟩, ⟨5, 6⟩] := by
  refine ⟨by decide, fun v => rfl, fun v => rfl, ?_⟩
  exact (additive_share_serialization_roundtrip 1 (fun v => [v]) (fun bs => bs.headD 0)
    (by decide) (fun v => rfl) (fun v => rfl) [⟨3, 4⟩, ⟨5, 6⟩]).1

/-- The revealed combination under a single deviation at position i collapses
to the random coefficient at i times the deviation residue. -/
theorem batchCheck_singleDeviation {q n : ℕ} (alpha : Fin n → ZMod q) (i : Fin n)
    (d : ZMod q) : batchCheck alpha (singleDeviation i d) = alpha i * d := by
  unfold batchCheck singleDeviation
  simp [mul_ite, mul_zero]

/-- C2: absent any deviation the terminal batched validation always succeeds;
a non-zero revealed check is always reported as the distinct integrity
failure, never as success; and under exactly one perturbed multiply message
(non-zero residue d at position i) the number of random coefficient vectors
for which validation still succeeds is exactly a 1/q fraction of all
coefficient vectors, so validation fails except with probability bounded by
1/field-size. -/
theorem malicious_validation_sound (q n : ℕ) [Fact (Nat.Prime q)] (i : Fin n)
    (d : ZMod q) (hd : d ≠ 0) :
    (∀ alpha : Fin n → ZMod q, validateBatch alpha (honestChecks q n) = ValidationResult.ok) ∧
    (∀ alpha c : Fin n → ZMod q, batchCheck alpha c ≠ 0 →
      validateBatch alpha c = ValidationResult.integrityFailure) ∧
    (Finset.univ.filter (fun alpha : Fin n → ZMod q =>
        validateBatch alpha (singleDeviation i d) = ValidationResult.ok)).card * q =
      Fintype.card (Fin n → ZMod q) := by
  refine ⟨?_, ?_, ?_⟩
  · intro alpha
    simp [validateBatch, batchCheck, honestChecks]
  · intro alpha c hne
    simp [validateBatch, hne]
  · have hfilter : Finset.univ.filter (fun alpha : Fin n → ZMod q =>
        validateBatch alpha (singleDeviation i d) = ValidationResult.ok) =
        Finset.univ.filter (fun alpha : Fin n → ZMod q => alpha i = 0) := by
      apply Finset.filter_congr
      intro alpha _
      simp only [validateBatch, batchCheck_singleDeviation]
      constructor
      · intro hok
        by_cases hz : alpha i * d = 0
        · rcases mul_eq_zero.mp hz with h0 | h0
          · exact h0
          · exact absurd h0 hd
        · simp [hz] at hok
      · intro h0
        simp [h0]
    have e : ({alpha : Fin n → ZMod q // alpha i = 0} × ZMod q) ≃ (Fin n → ZMod q) := by
      refine ⟨fun p => Function.update p.1.1 i p.2,
        fun f => ⟨⟨Function.update f i 0, by simp⟩, f i⟩, ?_, ?_⟩
      · intro p
        obtain ⟨⟨alpha, ha⟩, v⟩ := p
        refine Prod.ext ?_ ?_
        · apply Subtype.ext
          show Function.update (Function.update alpha i v) i 0 = alpha
          rw [Function.update_idem, ← ha, Function.update_eq_self]
        · exact Function.update_same i v alpha
      · intro f
        show Function.update (Function.update f i 0) i (f i) = f
        rw [Function.update_idem, Function.update_eq_self]
    have h1 : Fintype.card ({alpha : Fin n → ZMod q // alpha i = 0} × ZMod q) =
        Fintype.card (Fin n → ZMod q) := Fintype.card_congr e
    rw [Fintype.card_prod, ZMod.card, Fintype.card_subtype] at h1
    rw [hfilter]
    exact h1

/-- Witness for C2 with field size 3 and a one-element batch perturbed by
residue 1 at its only position. -/
theorem malicious_validation_sound_witness :
    ((1 : ZMod 3) ≠ 0) ∧
    (Finset.univ.filter (fun alpha : Fin 1 → ZMod 3 =>
        validateBatch alpha (singleDeviation 0 1) = ValidationResult.ok)).card * 3 =
      Fintype.card (Fin 1 → ZMod 3) := by
  refine ⟨by decide, ?_⟩
  exact (malicious_validation_sound 3 1 0 1 (by decide)).2.2
